import Mathlib

set_option maxHeartbeats 1000000
set_option maxRecDepth 10000

/- Verification of the chunking / deduplication / indexing core of the
smarter_codes_assignment backend.  Every definition below is a shallow
embedding of the corresponding Python code in src/backend/app/utils.py and
src/backend/main.py; names follow the source.  External collaborators (the
HuggingFace tokenizer, the Weaviate store, the embedding model) appear as
explicit function parameters, since they are not part of the repository. -/

/-- Python str.split() helper: flush the accumulator holding the word in
progress (reversed).  An empty accumulator contributes nothing. -/
def flushAcc (acc : List Char) : List (List Char) :=
  if acc = [] then [] else [acc.reverse]

/-- Python str.split() with no argument, over the character list: split on
whitespace, dropping empty pieces.  The accumulator holds the current word
reversed. -/
def splitWsAux : List Char → List Char → List (List Char)
  | [], acc => flushAcc acc
  | c :: cs, acc =>
    if c.isWhitespace then flushAcc acc ++ splitWsAux cs []
    else splitWsAux cs (c :: acc)

/-- Python str.split(): the whitespace-separated words of a string, with empty
pieces dropped. -/
def pySplit (s : String) : List String :=
  (splitWsAux s.data []).map String.mk

/-- Python ' '.join(pieces). -/
def joinSp : List String → String
  | [] => ""
  | [w] => w
  | w :: ws => w ++ " " ++ joinSp ws

/-- Python str.strip(): drop whitespace from both ends of a string. -/
def pyStrip (s : String) : String :=
  String.mk (((s.data.dropWhile Char.isWhitespace).reverse.dropWhile Char.isWhitespace).reverse)

/-- A chunk produced by split_into_chunks (src/backend/app/utils.py).  The
source also attaches a fresh random uuid as chunk_id; no claim mentions it and
it is omitted from the model. -/
structure Chunk where
  text : String
  tokens : Nat
deriving Repr, DecidableEq

/-- One iteration of the inner word loop of split_into_chunks
(src/backend/app/utils.py lines 26-36): append the word to the piece, join, and
emit a chunk as soon as the joined text reaches or exceeds max_tokens. -/
def emitWordStep (max_tokens : Nat) (num_tokens : String → Nat)
    (st : List Chunk × List String) (w : String) : List Chunk × List String :=
  let piece := st.2 ++ [w]
  let ptext := joinSp piece
  if num_tokens ptext ≥ max_tokens then
    (st.1 ++ [⟨ptext, num_tokens ptext⟩], [])
  else
    (st.1, piece)

/-- The naive word split applied to an oversized sentence
(src/backend/app/utils.py lines 22-46): run the word loop, then emit any
remaining words as one final chunk. -/
def splitOversized (max_tokens : Nat) (num_tokens : String → Nat)
    (chunks : List Chunk) (sent : String) : List Chunk :=
  match (pySplit sent).foldl (emitWordStep max_tokens num_tokens) (chunks, []) with
  | (cs, []) => cs
  | (cs, piece) => cs ++ [⟨joinSp piece, num_tokens (joinSp piece)⟩]

/-- The accumulator state of split_into_chunks: emitted chunks, the current
accumulator string and its cached token count. -/
structure ChunkState where
  chunks : List Chunk
  current : String
  current_tokens : Nat
deriving Repr, DecidableEq

/-- The body of the main sentence loop of split_into_chunks
(src/backend/app/utils.py lines 19-67).  An oversized sentence goes through the
word split (without flushing the accumulator); otherwise the sentence is merged
into the accumulator if the candidate stays within budget, else the accumulator
is flushed (if non-empty) and restarted with this sentence. -/
def sentStep (max_tokens : Nat) (num_tokens : String → Nat)
    (st : ChunkState) (sent : String) : ChunkState :=
  let tcount := num_tokens sent
  if tcount > max_tokens then
    { st with chunks := splitOversized max_tokens num_tokens st.chunks sent }
  else
    let candidate := if st.current = "" then sent else st.current ++ " " ++ sent
    let cand_tokens := num_tokens candidate
    if cand_tokens ≤ max_tokens then
      { st with current := candidate, current_tokens := cand_tokens }
    else if st.current = "" then
      { st with current := sent, current_tokens := tcount }
    else
      { chunks := st.chunks ++ [⟨st.current, st.current_tokens⟩],
        current := sent, current_tokens := tcount }

/-- split_into_chunks (src/backend/app/utils.py lines 3-78): fold the sentence
loop over the input, then flush any remaining non-empty accumulator. -/
def split_into_chunks (sentences : List String) (max_tokens : Nat)
    (num_tokens : String → Nat) : List Chunk :=
  let st := sentences.foldl (sentStep max_tokens num_tokens) ⟨[], "", 0⟩
  if st.current = "" then st.chunks else st.chunks ++ [⟨st.current, st.current_tokens⟩]

/-- Token counter counting whitespace-separated words, used as a concrete
num_tokens instance in counterexamples. -/
def wordCount (s : String) : Nat := (pySplit s).length

/-- Concatenation of the words of the text fields of a chunk list, in output
order. -/
def chunkWords (cs : List Chunk) : List String :=
  (cs.map (fun c => pySplit c.text)).flatten

/-- A parsed DOM node, abstracting the BeautifulSoup tree: either a text node
or an element with a tag and children.  Attributes are not modelled; no claim
depends on them. -/
inductive Node where
  | text (s : String)
  | elem (tag : String) (children : List Node)
deriving Repr

mutual
/-- The strings of all descendant text nodes of a node, in document order. -/
def textStrings : Node → List String
  | .text s => [s]
  | .elem _ cs => textStringsList cs
/-- textStrings over a list of sibling nodes. -/
def textStringsList : List Node → List String
  | [] => []
  | n :: ns => textStrings n ++ textStringsList ns
end

/-- BeautifulSoup element.get_text(separator=" ", strip=True): strip each
descendant string, drop the empty ones, and join with a single space. -/
def getText (n : Node) : String :=
  joinSp (((textStrings n).map pyStrip).filter (fun s => s ≠ ""))

mutual
/-- Python str(element): serialize a node back to markup.  Attributes are not
modelled, so an element prints as an open tag, its children, and a close tag. -/
def markup : Node → String
  | .text s => s
  | .elem t cs => "<" ++ t ++ ">" ++ markupList cs ++ "</" ++ t ++ ">"
/-- markup over a list of sibling nodes, concatenated. -/
def markupList : List Node → String
  | [] => ""
  | n :: ns => markup n ++ markupList ns
end

mutual
/-- BeautifulSoup find_all(tags) seen from a node included in the search: the
node itself if its tag matches, followed by the matches among its descendants,
in document (pre-)order. -/
def findAllFrom (tags : List String) : Node → List Node
  | .text _ => []
  | .elem t cs =>
    (if t ∈ tags then [Node.elem t cs] else []) ++ findAllFromList tags cs
/-- findAllFrom over a list of sibling nodes, concatenated. -/
def findAllFromList (tags : List String) : List Node → List Node
  | [] => []
  | n :: ns => findAllFrom tags n ++ findAllFromList tags ns
end

/-- soup.find_all(tags): all matching elements strictly below the given root,
in document order (find_all searches descendants, not the root itself). -/
def findAllDesc (tags : List String) : Node → List Node
  | .text _ => []
  | .elem _ cs => findAllFromList tags cs

/-- element.find_all(tags, recursive=False): the direct children whose tag is
in the list. -/
def findDirect (tags : List String) : Node → List Node
  | .text _ => []
  | .elem _ cs =>
    cs.filter (fun c => match c with | .elem t _ => t ∈ tags | .text _ => false)

mutual
/-- The tag.extract() loop of get_html_chunks (src/backend/main.py lines
149-150): remove every element whose tag is in the kill list, together with its
subtree. -/
def stripNodes (kill : List String) : Node → List Node
  | .text s => [.text s]
  | .elem t cs => if t ∈ kill then [] else [.elem t (stripNodesList kill cs)]
/-- stripNodes over a list of sibling nodes, concatenated. -/
def stripNodesList (kill : List String) : List Node → List Node
  | [] => []
  | n :: ns => stripNodes kill n ++ stripNodesList kill ns
end

/-- Removal of script/style/noscript/meta/link subtrees from the soup.  The
BeautifulSoup root is the [document] object, which is never in the kill list,
so only its children are filtered. -/
def stripSoup (kill : List String) : Node → Node
  | .text s => .text s
  | .elem t cs => .elem t (stripNodesList kill cs)

/-- The tag allow-list of the main find_all call (src/backend/main.py lines
156-158). -/
def allowTags : List String :=
  ["div", "section", "article", "header", "footer", "nav", "main", "aside",
   "p", "h1", "h2", "h3", "h4", "h5", "h6", "ul", "ol", "table", "li", "span"]

/-- The narrower leaf allow-list used for direct sub-elements
(src/backend/main.py line 185). -/
def subTags : List String :=
  ["p", "li", "td", "h1", "h2", "h3", "h4", "h5", "h6"]

/-- The tags stripped before chunking (src/backend/main.py line 149). -/
def killTags : List String := ["script", "style", "noscript", "meta", "link"]

/-- A chunk produced by get_html_chunks (src/backend/main.py): original or
synthetic markup, flattened text, and token count. -/
structure HChunk where
  html : String
  text : String
  tokens : Nat
deriving Repr, DecidableEq

/-- Fuel-driven slicing helper: tokens[i:i+k] for i in range(0, len, k).  The
fuel starts at the list length, which bounds the number of iterations since
each step drops at least one element (k is 500 at the call site). -/
def slicesFuel : Nat → List Nat → Nat → List (List Nat)
  | 0, _, _ => []
  | _ + 1, [], _ => []
  | fuel + 1, x :: xs, k =>
    if k = 0 then [] else (x :: xs).take k :: slicesFuel fuel ((x :: xs).drop k) k

/-- The slices tokens[i:i+max_tokens] of chunk_text_content's loop
(src/backend/main.py line 244). -/
def slices (l : List Nat) (k : Nat) : List (List Nat) :=
  slicesFuel l.length l k

/-- chunk_text_content (src/backend/main.py lines 239-252): encode the text,
cut the token list into max_tokens-sized slices, decode each slice, and keep
the stripped non-empty results.  The tokenizer's encode and decode are external
collaborators, passed as functions; they are total here, so the except branch
that returns [] on a tokenizer error is unreachable in the model. -/
def chunk_text_content (encode : String → List Nat) (decode : List Nat → String)
    (text : String) (max_tokens : Nat) : List String :=
  (slices (encode text) max_tokens).filterMap (fun sl =>
    let c := pyStrip (decode sl)
    if c = "" then none else some c)

/-- The synthetic wrapper markup for a sentence-fallback chunk
(src/backend/main.py line 208). -/
def chunkWrapper (i : Nat) (chunk_text : String) : String :=
  "<div class=\"chunk-" ++ toString i ++ "\">" ++ chunk_text ++ "</div>"

/-- The body of the sub-element loop (src/backend/main.py lines 187-203): a
direct child passing the min-length and dedup checks is emitted iff its own
token count is within 500; its text hash is recorded before the token check. -/
def processSub (encode : String → List Nat) (md5 : String → String)
    (st : List HChunk × List String) (sub_elem : Node) : List HChunk × List String :=
  let sub_html := markup sub_elem
  let sub_text := getText sub_elem
  if sub_text ≠ "" ∧ sub_text.length ≥ 15 then
    let sub_hash := md5 sub_text
    if sub_hash ∈ st.2 then st
    else
      let sub_tokens := (encode sub_text).length
      if sub_tokens ≤ 500 then (st.1 ++ [⟨sub_html, sub_text, sub_tokens⟩], sub_hash :: st.2)
      else (st.1, sub_hash :: st.2)
  else st

/-- The body of the main element loop of get_html_chunks (src/backend/main.py
lines 162-219): skip empty/short or already-seen texts, record the text hash,
then either emit the element (≤ 500 tokens), walk its direct sub-elements, or
fall back to chunk_text_content when there are none. -/
def processElement (encode : String → List Nat) (decode : List Nat → String)
    (md5 : String → String)
    (st : List HChunk × List String) (element : Node) : List HChunk × List String :=
  let html_str := markup element
  let text_content := getText element
  if text_content = "" ∨ text_content.length < 15 then st
  else
    let text_hash := md5 text_content
    if text_hash ∈ st.2 then st
    else
      let token_count := (encode text_content).length
      if token_count > 500 then
        let sub_elements := findDirect subTags element
        if sub_elements.isEmpty then
          let text_chunks := chunk_text_content encode decode text_content 500
          (st.1 ++ text_chunks.enum.map (fun p =>
            ⟨chunkWrapper p.1 p.2, p.2, (encode p.2).length⟩), text_hash :: st.2)
        else
          sub_elements.foldl (processSub encode md5) (st.1, text_hash :: st.2)
      else
        (st.1 ++ [⟨html_str, text_content, token_count⟩], text_hash :: st.2)

/-- The chunks produced by the main element loop of get_html_chunks, before
the zero-chunk whole-body fallback (src/backend/main.py lines 146-221). -/
def processedChunks (encode : String → List Nat) (decode : List Nat → String)
    (md5 : String → String) (soupRaw : Node) : List HChunk :=
  ((findAllDesc allowTags (stripSoup killTags soupRaw)).foldl
    (processElement encode decode md5) ([], [])).1

/-- get_html_chunks (src/backend/main.py lines 99-237) from the parsed soup
onwards.  Fetching the page is network I/O and outside the model; the function
receives the parsed DOM.  After the main loop, if no chunks were produced and
the whole-body text is longer than 20 characters, a single chunk is built from
the first 5000 characters of the body text. -/
def get_html_chunks (encode : String → List Nat) (decode : List Nat → String)
    (md5 : String → String) (soupRaw : Node) : List HChunk :=
  let chunks := processedChunks encode decode md5 soupRaw
  if chunks.length = 0 then
    let body_text := getText (stripSoup killTags soupRaw)
    if body_text ≠ "" ∧ body_text.length > 20 then
      [⟨"<div>" ++ String.mk (body_text.data.take 5000) ++ "</div>",
        String.mk (body_text.data.take 5000),
        (encode (String.mk (body_text.data.take 5000))).length⟩]
    else []
  else chunks

/-- Concrete soup for the C3 counterexample: a document whose only content is
a bare text node, so the allow-list matches no element and the whole-body
fallback fires. -/
def soupC3 : Node := Node.elem "[document]" [Node.text "abcd efgh ijkl mnop qrstuv"]

/-- Concrete tokenizer encode for the C3 counterexample: 20 tokens per
character. -/
def encC3 (s : String) : List Nat := List.replicate (20 * s.length) 0

/-- Concrete soup for the C4 counterexample: one div holding a long text with
no sub-elements. -/
def soupC4 : Node :=
  Node.elem "[document]" [Node.elem "div" [Node.text "qwertyuiopasdfgh"]]

/-- Concrete tokenizer encode for the C4 counterexample: the div's text
encodes to 501 tokens, everything else to one token. -/
def encC4 (s : String) : List Nat :=
  List.replicate (if s = "qwertyuiopasdfgh" then 501 else 1) 0

/-- Concrete tokenizer decode for the C4 counterexample: every slice decodes
to the same non-empty string, as happens when two oversized elements share a
token prefix. -/
def decC4 (_ : List Nat) : String := "dup text chunk"

/-- A record of the Weaviate HtmlChunk class as written by /search
(src/backend/main.py lines 341-352).  The embedding vector's element type is
abstract (the real one is a float list produced by the external model). -/
structure StoredChunk (V : Type) where
  html : String
  text : String
  url : String
  sha256 : String
  tokens : Nat
  vector : V
deriving Repr, DecidableEq

/-- Step 2 of /search (src/backend/main.py lines 316-320): deduplicate the
run's chunks by the sha256 hex digest of their text, first occurrence winning,
insertion order preserved (a Python dict).  The digest function is the external
hashlib.sha256 hexdigest, passed as a function. -/
def uniqueBySha (sha : String → String) (chunks : List HChunk) : List (String × HChunk) :=
  chunks.foldl (fun acc c =>
    let s := sha c.text
    if acc.any (fun p => p.1 == s) then acc else acc ++ [(s, c)]) []

/-- Step 3 of /search (src/backend/main.py lines 328-353): for each unique
(sha, chunk) pair, query the store for an existing record with that sha256
(with_limit(1), no url filter); if none exists, embed the text and create a
record for the requested url.  The store is modelled as the list of its
records; the query's where-filter is on the sha256 field only, exactly as in
the source.  Returns the final store and stored_count. -/
def storeStep {V : Type} (embed : String → V) (url : String)
    (st : List (StoredChunk V) × Nat) (p : String × HChunk) :
    List (StoredChunk V) × Nat :=
  let existing := (st.1.filter (fun r => r.sha256 == p.1)).take 1
  if existing.isEmpty then
    (st.1 ++ [⟨p.2.html, p.2.text, url, p.1, p.2.tokens, embed p.2.text⟩], st.2 + 1)
  else st

def store_new_chunks {V : Type} (embed : String → V) (url : String)
    (store : List (StoredChunk V)) (uchunks : List (String × HChunk)) :
    List (StoredChunk V) × Nat :=
  uchunks.foldl (storeStep embed url) (store, 0)

/-- The pre-existing store for the C5 counterexample: one record with digest
"H" owned by url https://a.com. -/
def storeC5 : List (StoredChunk Nat) :=
  [⟨"<p>t</p>", "t", "https://a.com", "H", 1, 0⟩]

/-- The chunk arriving for url https://b.com in the C5 counterexample: same
text "t", hence the same digest "H". -/
def chunkC5 : HChunk := ⟨"<div>t</div>", "t", 1⟩

/-- The digest function used in the C5 counterexample and witness: constant on
the texts involved. -/
def shaC5 (_ : String) : String := "H"

/-- The scheme and netloc components returned by urllib.parse.urlparse, as
used by validate_url. -/
structure UrlParts where
  scheme : String
  netloc : String
deriving Repr, DecidableEq

/-- The characters allowed in a URL scheme by urllib.parse (letters, digits,
plus, minus, dot). -/
def isSchemeChar (c : Char) : Bool :=
  c.isAlpha || c.isDigit || c == '+' || c == '-' || c == '.'

/-- urllib.parse.urlparse restricted to the fields validate_url reads: the
scheme is the text before the first colon when that colon is not first, the
first character is a letter and every character is a scheme character (the
scheme is lowercased); the netloc is the text after a leading double slash of
the remainder, up to the next slash, question mark or hash. -/
def pyUrlsplit (url : String) : UrlParts :=
  let l := url.data
  let p :=
    match List.findIdx? (fun c => c == ':') l with
    | some i =>
      if 0 < i ∧ (l.headD ' ').isAlpha ∧ (l.take i).all isSchemeChar then
        ((l.take i).map Char.toLower, l.drop (i + 1))
      else ([], l)
    | none => ([], l)
  let netloc :=
    match p.2 with
    | '/' :: '/' :: r => r.takeWhile (fun c => ¬(c == '/' || c == '?' || c == '#'))
    | _ => []
  ⟨String.mk p.1, String.mk netloc⟩

/-- The scheme fix-up of validate_url (src/backend/main.py lines 63-69): strip
the url and prepend https:// when it parses with no scheme. -/
def fixupUrl (url : String) : String :=
  let t := pyStrip url
  if (pyUrlsplit t).scheme = "" then "https://" ++ t else t

/-- validate_url (src/backend/main.py lines 61-76): after the fix-up, accept
iff both scheme and netloc are present, else raise ValueError with the message
built from the fixed url. -/
def validate_url (url : String) : Except String String :=
  let fixed := fixupUrl url
  let parsed := pyUrlsplit fixed
  if parsed.scheme = "" ∨ parsed.netloc = "" then
    Except.error ("Invalid URL format: " ++ fixed)
  else Except.ok fixed

/-- The validation prefix of the /search handler (src/backend/main.py lines
282-293): missing or falsy url/query gives HTTP 400; a validate_url ValueError
is caught and re-raised as HTTP 400.  (The handler's trailing
except-HTTPException re-raises these unchanged, so 400 is what the client
sees.)  On success the validated url is returned for the rest of the
pipeline. -/
def search_validate (url? query? : Option String) : Except (Nat × String) String :=
  if url?.getD "" = "" ∨ query?.getD "" = "" then
    Except.error (400, "URL and query are required")
  else
    match validate_url (url?.getD "") with
    | Except.error m => Except.error (400, m)
    | Except.ok u => Except.ok u

/-- The outcome of the /clear-url handler. -/
inductive ClearUrlResp where
  | cleared (url : String) (deleted : Nat)
  | errorResp (status : Nat) (detail : String)
deriving Repr, DecidableEq

/-- The exceptions that can be raised inside the try block of /clear-url. -/
inductive PyExc where
  | httpExc (status : Nat) (detail : String)
  | valueError (msg : String)
deriving Repr, DecidableEq

/-- Python str(e) for the exceptions above; starlette's HTTPException prints
as "status: detail". -/
def strExc : PyExc → String
  | .httpExc s d => toString s ++ ": " ++ d
  | .valueError m => m

/-- The try block of /clear-url (src/backend/main.py lines 413-435): raise
HTTPException(400) when the url field is missing or falsy, let validate_url's
ValueError propagate, otherwise delete by url filter (the store's reported
successful-count is the external parameter deleted) and return the cleared
response. -/
def clear_url_body (url? : Option String) (deleted : Nat) :
    Except PyExc (String × Nat) :=
  if url?.getD "" = "" then Except.error (.httpExc 400 "URL is required")
  else
    match validate_url (url?.getD "") with
    | Except.error m => Except.error (.valueError m)
    | Except.ok u => Except.ok (u, deleted)

/-- The /clear-url handler (src/backend/main.py lines 410-438): the whole body
runs under a blanket except-Exception that converts ANY exception — including
the handler's own HTTPException(400) and validate_url's ValueError — into
HTTPException(500, str(e)).  Unlike /search, there is no except-HTTPException
re-raise before it. -/
def clear_url (url? : Option String) (deleted : Nat) : ClearUrlResp :=
  match clear_url_body url? deleted with
  | Except.ok (u, d) => .cleared u d
  | Except.error e => .errorResp 500 (strExc e)

/-- A hit returned by the Weaviate nearest-neighbor query, with the
_additional distance (absent distances default to 1 in the handler). -/
structure SearchHit where
  html : String
  text : String
  url : String
  tokens : Nat
  distance : Option ℚ
deriving Repr, DecidableEq

/-- A formatted /search result entry. -/
structure ResultItem where
  html : String
  text : String
  url : String
  tokens : Nat
  score : ℚ
deriving Repr, DecidableEq

/-- The nearest-neighbor query built by /search (src/backend/main.py lines
360-372): class HtmlChunk, the four returned fields, the query vector, a
where-filter url Equal the validated url, limit 10, plus the distance. -/
structure NearQuery (V : Type) where
  className : String
  fields : List String
  vector : V
  wherePath : List String
  whereValue : String
  limit : Nat
  additional : List String
deriving Repr, DecidableEq

/-- The query /search issues against the store (src/backend/main.py lines
360-372). -/
def build_search_query {V : Type} (url : String) (v : V) : NearQuery V :=
  ⟨"HtmlChunk", ["html", "text", "url", "tokens"], v, ["url"], url, 10, ["distance"]⟩

/-- The result-formatting loop of /search (src/backend/main.py lines 378-386):
each hit becomes a result with score = 1 - distance, the distance defaulting
to 1 when the store reports none. -/
def format_results (hits : List SearchHit) : List ResultItem :=
  hits.map (fun h => ⟨h.html, h.text, h.url, h.tokens, 1 - h.distance.getD 1⟩)

/-- String append acts as append on the character lists. -/
theorem string_data_append (a b : String) : (a ++ b).data = a.data ++ b.data := by
  cases a; cases b; rfl

/-- Two strings with the same character list are equal. -/
theorem string_mk_data (s : String) : String.mk s.data = s := by
  cases s; rfl

/-- A space character is whitespace. -/
theorem space_isWhitespace : (' ' : Char).isWhitespace = true := by decide

/-- Splitting distributes over concatenation around a space separator. -/
theorem splitWsAux_append_space (l2 : List Char) :
    ∀ (l1 acc : List Char),
      splitWsAux (l1 ++ ' ' :: l2) acc = splitWsAux l1 acc ++ splitWsAux l2 [] := by
  intro l1
  induction l1 with
  | nil =>
    intro acc
    simp [splitWsAux, space_isWhitespace]
  | cons c cs ih =>
    intro acc
    by_cases h : c.isWhitespace
    · simp [splitWsAux, h, ih, List.append_assoc]
    · simp [splitWsAux, h, ih]

/-- Splitting a non-empty all-non-whitespace run yields exactly one word,
prefixed by the pending accumulator. -/
theorem splitWsAux_word :
    ∀ (w acc : List Char), (∀ c ∈ w, c.isWhitespace = false) → w ≠ [] →
      splitWsAux w acc = [acc.reverse ++ w] := by
  intro w
  induction w with
  | nil => intro acc _ hne; exact absurd rfl hne
  | cons c cs ih =>
    intro acc hnw _
    have hc : c.isWhitespace = false := hnw c (by simp)
    cases cs with
    | nil =>
      rw [splitWsAux, if_neg (by simp [hc])]
      simp [splitWsAux, flushAcc]
    | cons d ds =>
      have h2 := ih (c :: acc) (fun x hx => hnw x (List.mem_cons_of_mem c hx)) (by simp)
      rw [splitWsAux, if_neg (by simp [hc]), h2]
      simp

/-- Every word split off a string is non-empty and whitespace-free, provided
the pending accumulator is whitespace-free. -/
theorem splitWsAux_wellFormed :
    ∀ (l acc : List Char), (∀ c ∈ acc, c.isWhitespace = false) →
      ∀ wl ∈ splitWsAux l acc, wl ≠ [] ∧ ∀ c ∈ wl, c.isWhitespace = false := by
  intro l
  induction l with
  | nil =>
    intro acc hacc wl hwl
    rw [splitWsAux, flushAcc] at hwl
    by_cases h : acc = []
    · simp [h] at hwl
    · simp [h] at hwl
      subst hwl
      constructor
      · simpa using h
      · intro c hc
        exact hacc c (List.mem_reverse.mp hc)
  | cons c cs ih =>
    intro acc hacc wl hwl
    by_cases h : c.isWhitespace
    · rw [splitWsAux, if_pos h] at hwl
      rcases List.mem_append.mp hwl with h1 | h2
      · rw [flushAcc] at h1
        by_cases ha : acc = []
        · simp [ha] at h1
        · simp [ha] at h1
          subst h1
          exact ⟨by simpa using ha, fun x hx => hacc x (List.mem_reverse.mp hx)⟩
      · exact ih [] (by simp) wl h2
    · rw [splitWsAux, if_neg h] at hwl
      refine ih (c :: acc) ?_ wl hwl
      intro x hx
      rcases List.mem_cons.mp hx with rfl | hx
      · simpa using h
      · exact hacc x hx

/-- A string with a non-empty character list is not the empty string. -/
theorem string_ne_empty_of_data {s : String} (h : s.data ≠ []) : s ≠ "" := by
  intro he
  subst he
  exact h rfl

/-- A string with an empty character list is the empty string. -/
theorem string_eq_empty_of_data {s : String} (h : s.data = []) : s = "" := by
  cases s
  simp at h
  rw [h]

/-- pySplit distributes over joining two strings with a single space. -/
theorem pySplit_append_space (a b : String) :
    pySplit (a ++ " " ++ b) = pySplit a ++ pySplit b := by
  unfold pySplit
  have hd : (a ++ " " ++ b).data = a.data ++ ' ' :: b.data := by
    rw [string_data_append, string_data_append]
    simp
  rw [hd, splitWsAux_append_space, List.map_append]

/-- Every word of pySplit is non-empty and whitespace-free. -/
theorem pySplit_wellFormed (s : String) :
    ∀ w ∈ pySplit s, w ≠ "" ∧ ∀ c ∈ w.data, c.isWhitespace = false := by
  intro w hw
  rcases List.mem_map.mp hw with ⟨wl, hwl, rfl⟩
  have h := splitWsAux_wellFormed s.data [] (by simp) wl hwl
  refine ⟨string_ne_empty_of_data ?_, h.2⟩
  exact h.1

/-- Splitting the space-join of well-formed words recovers the words. -/
theorem pySplit_joinSp :
    ∀ ws : List String,
      (∀ w ∈ ws, w ≠ "" ∧ ∀ c ∈ w.data, c.isWhitespace = false) →
      pySplit (joinSp ws) = ws := by
  intro ws
  induction ws with
  | nil => intro _; rfl
  | cons w ws ih =>
    intro h
    have hw := h w (by simp)
    have hdata : w.data ≠ [] := by
      intro hd
      exact hw.1 (string_eq_empty_of_data hd)
    cases ws with
    | nil =>
      show pySplit w = [w]
      unfold pySplit
      rw [splitWsAux_word w.data [] hw.2 hdata]
      simp [string_mk_data]
    | cons x xs =>
      show pySplit (w ++ " " ++ joinSp (x :: xs)) = _
      rw [pySplit_append_space]
      have h1 : pySplit w = [w] := by
        unfold pySplit
        rw [splitWsAux_word w.data [] hw.2 hdata]
        simp [string_mk_data]
      rw [h1, ih (fun y hy => h y (List.mem_cons_of_mem w hy))]
      rfl

/-- The space-join of a non-empty list of non-empty strings is non-empty. -/
theorem joinSp_ne_empty :
    ∀ ws : List String, ws ≠ [] → (∀ w ∈ ws, w ≠ "") → joinSp ws ≠ "" := by
  intro ws
  induction ws with
  | nil => intro h _; exact absurd rfl h
  | cons w ws _ =>
    intro _ h
    cases ws with
    | nil =>
      show w ≠ ""
      exact h w (by simp)
    | cons x xs =>
      show w ++ " " ++ joinSp (x :: xs) ≠ ""
      apply string_ne_empty_of_data
      rw [string_data_append, string_data_append]
      simp

/-- Splitting the space-join of arbitrary strings is the concatenation of
their splits. -/
theorem pySplit_joinSp_flatten :
    ∀ ts : List String, pySplit (joinSp ts) = (ts.map pySplit).flatten := by
  intro ts
  induction ts with
  | nil => rfl
  | cons t ts ih =>
    cases ts with
    | nil => show pySplit t = _; simp
    | cons x xs =>
      show pySplit (t ++ " " ++ joinSp (x :: xs)) = _
      rw [pySplit_append_space, ih]
      simp

/-- Invariant preservation through List.foldl, with access to membership of
each processed item. -/
theorem foldl_invariant {σ α : Type} (P : σ → Prop) (f : σ → α → σ) :
    ∀ (l : List α) (s : σ), P s → (∀ s a, a ∈ l → P s → P (f s a)) →
      P (l.foldl f s) := by
  intro l
  induction l with
  | nil => intro s h _; exact h
  | cons a l ih =>
    intro s h hstep
    exact ih (f s a) (hstep s a (by simp) h)
      (fun s b hb => hstep s b (List.mem_cons_of_mem a hb))

/-- Permutation bookkeeping through List.foldl: if each step extends the
measured word list of the state by the words of the processed item (up to
permutation), the fold extends it by the concatenation of all items' words. -/
theorem foldl_measure_perm {σ α : Type} (meas : σ → List String)
    (f : σ → α → σ) (g : α → List String)
    (hstep : ∀ s a, List.Perm (meas (f s a)) (meas s ++ g a)) :
    ∀ (l : List α) (s : σ),
      List.Perm (meas (l.foldl f s)) (meas s ++ (l.map g).flatten) := by
  intro l
  induction l with
  | nil => intro s; simp
  | cons a l ih =>
    intro s
    refine (ih (f s a)).trans ?_
    have h2 := (hstep s a).append_right ((l.map g).flatten)
    simpa [List.append_assoc] using h2

/-- Chunks emitted by the word split of an oversized sentence are within
budget or consist of a word group that first reached the budget with its last
word. -/
theorem splitOversized_sound (m : Nat) (f : String → Nat) (cs : List Chunk)
    (sent : String)
    (hcs : ∀ c ∈ cs, f c.text ≤ m ∨
      ∃ ws w, c.text = joinSp (ws ++ [w]) ∧ (ws = [] ∨ f (joinSp ws) < m) ∧ m ≤ f c.text) :
    ∀ c ∈ splitOversized m f cs sent,
      f c.text ≤ m ∨
      ∃ ws w, c.text = joinSp (ws ++ [w]) ∧ (ws = [] ∨ f (joinSp ws) < m) ∧ m ≤ f c.text := by
  have hfold := foldl_invariant
    (fun st : List Chunk × List String =>
      (∀ c ∈ st.1, f c.text ≤ m ∨
        ∃ ws w, c.text = joinSp (ws ++ [w]) ∧ (ws = [] ∨ f (joinSp ws) < m) ∧ m ≤ f c.text) ∧
      (st.2 = [] ∨ f (joinSp st.2) < m))
    (emitWordStep m f) (pySplit sent) (cs, []) ⟨hcs, Or.inl rfl⟩ ?step
  case step =>
    intro st w _ hst
    unfold emitWordStep
    by_cases h : f (joinSp (st.2 ++ [w])) ≥ m
    · rw [if_pos h]
      refine ⟨?_, Or.inl rfl⟩
      intro c hc
      rcases List.mem_append.mp hc with h1 | h2
      · exact hst.1 c h1
      · simp at h2
        subst h2
        exact Or.inr ⟨st.2, w, rfl, hst.2, h⟩
    · rw [if_neg h]
      exact ⟨hst.1, Or.inr (Nat.lt_of_not_le (fun hle => h hle))⟩
  intro c hc
  unfold splitOversized at hc
  rcases hr : (pySplit sent).foldl (emitWordStep m f) (cs, []) with ⟨cs', piece⟩
  rw [hr] at hfold hc
  cases piece with
  | nil => exact hfold.1 c hc
  | cons p ps =>
    rcases List.mem_append.mp hc with h1 | h2
    · exact hfold.1 c h1
    · simp at h2
      subst h2
      rcases hfold.2 with h | h
      · exact absurd h (by simp)
      · exact Or.inl (Nat.le_of_lt h)

/-- The sentence loop preserves the C1 invariant: emitted chunks are within
budget or word-split overflow groups, and a non-empty accumulator is within
budget. -/
theorem sentStep_c1 (m : Nat) (f : String → Nat) (st : ChunkState) (sent : String)
    (hst : (∀ c ∈ st.chunks, f c.text ≤ m ∨
        ∃ ws w, c.text = joinSp (ws ++ [w]) ∧ (ws = [] ∨ f (joinSp ws) < m) ∧ m ≤ f c.text) ∧
      (st.current ≠ "" → f st.current ≤ m)) :
    (∀ c ∈ (sentStep m f st sent).chunks, f c.text ≤ m ∨
        ∃ ws w, c.text = joinSp (ws ++ [w]) ∧ (ws = [] ∨ f (joinSp ws) < m) ∧ m ≤ f c.text) ∧
      ((sentStep m f st sent).current ≠ "" → f (sentStep m f st sent).current ≤ m) := by
  unfold sentStep
  by_cases h1 : f sent > m
  · rw [if_pos h1]
    exact ⟨splitOversized_sound m f st.chunks sent hst.1, hst.2⟩
  · rw [if_neg h1]
    by_cases h2 : f (if st.current = "" then sent else st.current ++ " " ++ sent) ≤ m
    · rw [if_pos h2]
      exact ⟨hst.1, fun _ => h2⟩
    · rw [if_neg h2]
      by_cases h3 : st.current = ""
      · rw [if_pos h3]
        exact ⟨hst.1, fun _ => Nat.le_of_not_lt h1⟩
      · rw [if_neg h3]
        refine ⟨?_, fun _ => Nat.le_of_not_lt h1⟩
        intro c hc
        rcases List.mem_append.mp hc with hA | hB
        · exact hst.1 c hA
        · simp at hB
          subst hB
          exact Or.inl (hst.2 h3)

/-- C1 counterexample: with num_tokens = String.length and max_tokens = 3, the
input ["ab cd"] produces the single chunk "ab cd" of 5 tokens, which exceeds
the budget yet consists of two words, not of a single indivisible word — the
word loop only emits after the joined text has already reached or passed the
budget, so a multi-word group can overshoot.  This refutes the claim that every
over-budget chunk arises from a single indivisible word. -/
theorem C1_counterexample :
    split_into_chunks ["ab cd"] 3 String.length = [⟨"ab cd", 5⟩] ∧
    ¬(String.length "ab cd" ≤ 3) ∧ (pySplit "ab cd").length = 2 := by
  decide

/-- C1 (amended): every chunk of split_into_chunks has num_tokens(text) within
max_tokens, except a chunk emitted by the word-level split of an oversized
sentence, which is a word group joined from a (possibly empty) under-budget
prefix plus one final word that made the count reach or exceed the budget — in
particular a single indivisible word over the budget alone. -/
theorem C1_amended (sentences : List String) (m : Nat) (f : String → Nat) :
    ∀ c ∈ split_into_chunks sentences m f,
      f c.text ≤ m ∨
      ∃ ws w, c.text = joinSp (ws ++ [w]) ∧ (ws = [] ∨ f (joinSp ws) < m) ∧ m ≤ f c.text := by
  have hfold := foldl_invariant
    (fun st : ChunkState =>
      (∀ c ∈ st.chunks, f c.text ≤ m ∨
        ∃ ws w, c.text = joinSp (ws ++ [w]) ∧ (ws = [] ∨ f (joinSp ws) < m) ∧ m ≤ f c.text) ∧
      (st.current ≠ "" → f st.current ≤ m))
    (sentStep m f) sentences ⟨[], "", 0⟩ ⟨by simp, by simp⟩
    (fun st sent _ h => sentStep_c1 m f st sent h)
  intro c hc
  unfold split_into_chunks at hc
  by_cases h : (sentences.foldl (sentStep m f) ⟨[], "", 0⟩).current = ""
  · rw [if_pos h] at hc
    exact hfold.1 c hc
  · rw [if_neg h] at hc
    rcases List.mem_append.mp hc with hA | hB
    · exact hfold.1 c hA
    · simp at hB
      subst hB
      exact Or.inl (hfold.2 h)

/-- C1 witness: the amended theorem applied at a concrete input. -/
theorem C1_amended_witness :
    (Chunk.mk "ab" 2) ∈ split_into_chunks ["ab"] 10 String.length ∧
    (String.length (Chunk.mk "ab" 2).text ≤ 10 ∨
      ∃ ws w, (Chunk.mk "ab" 2).text = joinSp (ws ++ [w]) ∧
        (ws = [] ∨ String.length (joinSp ws) < 10) ∧ 10 ≤ String.length (Chunk.mk "ab" 2).text) :=
  ⟨by decide, C1_amended ["ab"] 10 String.length (Chunk.mk "ab" 2) (by decide)⟩

/-- Word-split chunks have non-empty text and a tokens field recomputed from
their text. -/
theorem splitOversized_c10 (m : Nat) (f : String → Nat) (cs : List Chunk)
    (sent : String) (hcs : ∀ c ∈ cs, c.text ≠ "" ∧ c.tokens = f c.text) :
    ∀ c ∈ splitOversized m f cs sent, c.text ≠ "" ∧ c.tokens = f c.text := by
  have hfold := foldl_invariant
    (fun st : List Chunk × List String =>
      (∀ c ∈ st.1, c.text ≠ "" ∧ c.tokens = f c.text) ∧ (∀ w ∈ st.2, w ≠ ""))
    (emitWordStep m f) (pySplit sent) (cs, []) ⟨hcs, by simp⟩ ?step
  case step =>
    intro st w hw hst
    have hwne : w ≠ "" := (pySplit_wellFormed sent w hw).1
    have hpne : ∀ x ∈ st.2 ++ [w], x ≠ "" := by
      intro x hx
      rcases List.mem_append.mp hx with h1 | h2
      · exact hst.2 x h1
      · simp at h2; subst h2; exact hwne
    unfold emitWordStep
    by_cases h : f (joinSp (st.2 ++ [w])) ≥ m
    · rw [if_pos h]
      refine ⟨?_, by simp⟩
      intro c hc
      rcases List.mem_append.mp hc with h1 | h2
      · exact hst.1 c h1
      · simp at h2
        subst h2
        exact ⟨joinSp_ne_empty (st.2 ++ [w]) (by simp) hpne, rfl⟩
    · rw [if_neg h]
      exact ⟨hst.1, hpne⟩
  intro c hc
  unfold splitOversized at hc
  rcases hr : (pySplit sent).foldl (emitWordStep m f) (cs, []) with ⟨cs', piece⟩
  rw [hr] at hfold hc
  cases piece with
  | nil => exact hfold.1 c hc
  | cons p ps =>
    rcases List.mem_append.mp hc with h1 | h2
    · exact hfold.1 c h1
    · simp at h2
      subst h2
      exact ⟨joinSp_ne_empty (p :: ps) (by simp) hfold.2, rfl⟩

/-- The sentence loop preserves the C10 invariant: chunk texts are non-empty
with tokens recomputable from them, and the cached accumulator count matches
its text. -/
theorem sentStep_c10 (m : Nat) (f : String → Nat) (st : ChunkState) (sent : String)
    (hst : (∀ c ∈ st.chunks, c.text ≠ "" ∧ c.tokens = f c.text) ∧
      (st.current ≠ "" → st.current_tokens = f st.current)) :
    (∀ c ∈ (sentStep m f st sent).chunks, c.text ≠ "" ∧ c.tokens = f c.text) ∧
      ((sentStep m f st sent).current ≠ "" →
        (sentStep m f st sent).current_tokens = f (sentStep m f st sent).current) := by
  unfold sentStep
  by_cases h1 : f sent > m
  · rw [if_pos h1]
    exact ⟨splitOversized_c10 m f st.chunks sent hst.1, hst.2⟩
  · rw [if_neg h1]
    by_cases h2 : f (if st.current = "" then sent else st.current ++ " " ++ sent) ≤ m
    · rw [if_pos h2]
      exact ⟨hst.1, fun _ => rfl⟩
    · rw [if_neg h2]
      by_cases h3 : st.current = ""
      · rw [if_pos h3]
        exact ⟨hst.1, fun _ => rfl⟩
      · rw [if_neg h3]
        refine ⟨?_, fun _ => rfl⟩
        intro c hc
        rcases List.mem_append.mp hc with hA | hB
        · exact hst.1 c hA
        · simp at hB
          subst hB
          exact ⟨h3, hst.2 h3⟩

/-- C10: every chunk of split_into_chunks has non-empty text, and its tokens
field equals the supplied token counter applied to its text. -/
theorem C10_chunk_fields (sentences : List String) (m : Nat) (f : String → Nat) :
    ∀ c ∈ split_into_chunks sentences m f, c.text ≠ "" ∧ c.tokens = f c.text := by
  have hfold := foldl_invariant
    (fun st : ChunkState =>
      (∀ c ∈ st.chunks, c.text ≠ "" ∧ c.tokens = f c.text) ∧
      (st.current ≠ "" → st.current_tokens = f st.current))
    (sentStep m f) sentences ⟨[], "", 0⟩ ⟨by simp, by simp⟩
    (fun st sent _ h => sentStep_c10 m f st sent h)
  intro c hc
  unfold split_into_chunks at hc
  by_cases h : (sentences.foldl (sentStep m f) ⟨[], "", 0⟩).current = ""
  · rw [if_pos h] at hc
    exact hfold.1 c hc
  · rw [if_neg h] at hc
    rcases List.mem_append.mp hc with hA | hB
    · exact hfold.1 c hA
    · simp at hB
      subst hB
      exact ⟨h, hfold.2 h⟩

/-- C10 witness: the field invariant applied at a concrete input. -/
theorem C10_chunk_fields_witness :
    (Chunk.mk "cd ef" 5) ∈ split_into_chunks ["cd", "ef"] 10 String.length ∧
    (Chunk.mk "cd ef" 5).text ≠ "" ∧
    (Chunk.mk "cd ef" 5).tokens = String.length (Chunk.mk "cd ef" 5).text :=
  ⟨by decide, C10_chunk_fields ["cd", "ef"] 10 String.length (Chunk.mk "cd ef" 5) (by decide)⟩

/-- Folding the word loop over words that each meet or exceed the budget emits
every word as its own chunk. -/
theorem wordFold_allBig (m : Nat) (f : String → Nat) :
    ∀ (ws : List String) (cs : List Chunk), (∀ w ∈ ws, m ≤ f w) →
      ws.foldl (emitWordStep m f) (cs, []) =
        (cs ++ ws.map (fun w => ⟨w, f w⟩), []) := by
  intro ws
  induction ws with
  | nil => intro cs _; simp
  | cons w ws ih =>
    intro cs h
    have hw : m ≤ f w := h w (by simp)
    show List.foldl (emitWordStep m f) (emitWordStep m f (cs, []) w) ws = _
    have hstep : emitWordStep m f (cs, []) w = (cs ++ [Chunk.mk w (f w)], []) := by
      simp [emitWordStep, joinSp, hw]
    rw [hstep, ih (cs ++ [Chunk.mk w (f w)]) (fun x hx => h x (List.mem_cons_of_mem w hx))]
    simp

/-- C7: split_into_chunks is a total function of its inputs (termination is by
construction in this model); the empty sentence list yields the empty chunk
list; and an oversized sentence none of whose words fits under the budget
still emits each word as its own chunk — no word is lost and no loop runs
forever. -/
theorem C7_termination_edge :
    (∀ (m : Nat) (f : String → Nat), split_into_chunks [] m f = []) ∧
    (∀ (sent : String) (m : Nat) (f : String → Nat), m < f sent →
      (∀ w ∈ pySplit sent, m ≤ f w) →
      split_into_chunks [sent] m f = (pySplit sent).map (fun w => ⟨w, f w⟩)) := by
  constructor
  · intro m f; rfl
  · intro sent m f hbig hwords
    have hstep : sentStep m f ⟨[], "", 0⟩ sent =
        ⟨(pySplit sent).map (fun w => ⟨w, f w⟩), "", 0⟩ := by
      unfold sentStep
      rw [if_pos hbig]
      unfold splitOversized
      rw [wordFold_allBig m f (pySplit sent) [] hwords]
      simp
    unfold split_into_chunks
    rw [show List.foldl (sentStep m f) ⟨[], "", 0⟩ [sent] =
        sentStep m f ⟨[], "", 0⟩ sent from rfl, hstep]
    simp

/-- C7 witness: the edge-case theorem applied at concrete inputs. -/
theorem C7_termination_edge_witness :
    split_into_chunks [] 3 String.length = [] ∧
    split_into_chunks ["aaa bbb"] 1 String.length = [⟨"aaa", 3⟩, ⟨"bbb", 3⟩] :=
  ⟨C7_termination_edge.1 3 String.length,
   by
    have h := C7_termination_edge.2 "aaa bbb" 1 String.length (by decide) (by decide)
    rw [h]
    decide⟩

/-- chunkWords distributes over appending one chunk. -/
theorem chunkWords_append_one (cs : List Chunk) (c : Chunk) :
    chunkWords (cs ++ [c]) = chunkWords cs ++ pySplit c.text := by
  simp [chunkWords]

/-- The word loop preserves the words: the words of the emitted chunks
followed by the pending piece are the initial words followed by the processed
words, and the pending piece stays well-formed. -/
theorem wordFold_words (m : Nat) (f : String → Nat) :
    ∀ (ws : List String) (cs : List Chunk) (piece : List String),
      (∀ w ∈ ws, w ≠ "" ∧ ∀ c ∈ w.data, c.isWhitespace = false) →
      (∀ w ∈ piece, w ≠ "" ∧ ∀ c ∈ w.data, c.isWhitespace = false) →
      chunkWords ((ws.foldl (emitWordStep m f) (cs, piece)).1) ++
          (ws.foldl (emitWordStep m f) (cs, piece)).2
        = chunkWords cs ++ piece ++ ws ∧
      ∀ w ∈ (ws.foldl (emitWordStep m f) (cs, piece)).2,
        w ≠ "" ∧ ∀ c ∈ w.data, c.isWhitespace = false := by
  intro ws
  induction ws with
  | nil =>
    intro cs piece _ hpiece
    exact ⟨by simp, hpiece⟩
  | cons w ws ih =>
    intro cs piece hws hpiece
    have hw := hws w (by simp)
    have hpw : ∀ x ∈ piece ++ [w], x ≠ "" ∧ ∀ c ∈ x.data, c.isWhitespace = false := by
      intro x hx
      rcases List.mem_append.mp hx with h1 | h2
      · exact hpiece x h1
      · simp at h2; subst h2; exact hw
    have hws' : ∀ x ∈ ws, x ≠ "" ∧ ∀ c ∈ x.data, c.isWhitespace = false :=
      fun x hx => hws x (List.mem_cons_of_mem w hx)
    rw [List.foldl_cons]
    by_cases h : f (joinSp (piece ++ [w])) ≥ m
    · have hstep : emitWordStep m f (cs, piece) w =
          (cs ++ [Chunk.mk (joinSp (piece ++ [w])) (f (joinSp (piece ++ [w])))], []) := by
        unfold emitWordStep
        rw [if_pos h]
      rw [hstep]
      rcases ih (cs ++ [Chunk.mk (joinSp (piece ++ [w])) (f (joinSp (piece ++ [w])))]) []
        hws' (by simp) with ⟨h1, h2⟩
      refine ⟨?_, h2⟩
      rw [h1, chunkWords_append_one]
      show chunkWords cs ++ pySplit (joinSp (piece ++ [w])) ++ [] ++ ws = _
      rw [pySplit_joinSp (piece ++ [w]) hpw]
      simp
    · have hstep : emitWordStep m f (cs, piece) w = (cs, piece ++ [w]) := by
        unfold emitWordStep
        rw [if_neg h]
      rw [hstep]
      rcases ih cs (piece ++ [w]) hws' hpw with ⟨h1, h2⟩
      refine ⟨?_, h2⟩
      rw [h1]
      simp

/-- The word split of an oversized sentence appends exactly the sentence's
words to the emitted chunk texts. -/
theorem splitOversized_words (m : Nat) (f : String → Nat) (cs : List Chunk)
    (sent : String) :
    chunkWords (splitOversized m f cs sent) = chunkWords cs ++ pySplit sent := by
  have h := wordFold_words m f (pySplit sent) cs [] (pySplit_wellFormed sent) (by simp)
  unfold splitOversized
  rcases hr : (pySplit sent).foldl (emitWordStep m f) (cs, []) with ⟨cs', piece⟩
  rw [hr] at h
  cases piece with
  | nil =>
    have := h.1
    simpa using this
  | cons p ps =>
    rw [chunkWords_append_one]
    show chunkWords cs' ++ pySplit (joinSp (p :: ps)) = _
    rw [pySplit_joinSp (p :: ps) h.2]
    have := h.1
    simpa using this

/-- Each step of the sentence loop extends the word measure (emitted words
plus pending accumulator words) by the sentence's words, up to permutation:
the oversized path appends the sentence's words before the still-pending
accumulator words, the other paths extend in order. -/
theorem sentStep_perm (m : Nat) (f : String → Nat) (st : ChunkState) (sent : String) :
    List.Perm
      (chunkWords (sentStep m f st sent).chunks ++ pySplit (sentStep m f st sent).current)
      ((chunkWords st.chunks ++ pySplit st.current) ++ pySplit sent) := by
  unfold sentStep
  by_cases h1 : f sent > m
  · rw [if_pos h1]
    show List.Perm (chunkWords (splitOversized m f st.chunks sent) ++ pySplit st.current) _
    rw [splitOversized_words]
    simp only [List.append_assoc]
    exact List.Perm.append_left _ List.perm_append_comm
  · rw [if_neg h1]
    by_cases h2 : f (if st.current = "" then sent else st.current ++ " " ++ sent) ≤ m
    · rw [if_pos h2]
      show List.Perm (chunkWords st.chunks ++
        pySplit (if st.current = "" then sent else st.current ++ " " ++ sent)) _
      by_cases h3 : st.current = ""
      · rw [if_pos h3, h3]
        have : pySplit "" = [] := rfl
        rw [this]
        simp
      · rw [if_neg h3, pySplit_append_space]
        simp
    · rw [if_neg h2]
      by_cases h3 : st.current = ""
      · rw [if_pos h3, h3]
        show List.Perm (chunkWords st.chunks ++ pySplit sent) _
        have : pySplit "" = [] := rfl
        rw [this]
        simp
      · rw [if_neg h3]
        show List.Perm
          (chunkWords (st.chunks ++ [Chunk.mk st.current st.current_tokens]) ++ pySplit sent) _
        rw [chunkWords_append_one]

/-- C2 counterexample: with a per-word token counter and budget 2, the input
["a", "x y z"] leaves "a" pending in the accumulator while the oversized
second sentence is word-split and emitted first; the accumulator is flushed
only at the end, so the concatenated output reads "x y z a" and does not
reconstruct the original word order — the source never flushes the accumulator
before the word split. -/
theorem C2_counterexample :
    split_into_chunks ["a", "x y z"] 2 wordCount =
      [⟨"x y", 2⟩, ⟨"z", 1⟩, ⟨"a", 1⟩] ∧
    pySplit (joinSp ((split_into_chunks ["a", "x y z"] 2 wordCount).map Chunk.text)) ≠
      ((["a", "x y z"].map pySplit).flatten) := by
  decide

/-- C2 (amended): splitting the space-joined concatenation of the output chunk
texts of split_into_chunks yields a permutation of the input sentences' words —
every word occurrence is preserved with no loss or duplication, but not
necessarily in the original order: the word-split chunks of an oversized
sentence are emitted before the pending accumulator is flushed. -/
theorem C2_amended (sentences : List String) (m : Nat) (f : String → Nat) :
    List.Perm
      (pySplit (joinSp ((split_into_chunks sentences m f).map Chunk.text)))
      ((sentences.map pySplit).flatten) := by
  have hfold := foldl_measure_perm
    (fun st : ChunkState => chunkWords st.chunks ++ pySplit st.current)
    (sentStep m f) pySplit (fun s a => sentStep_perm m f s a) sentences ⟨[], "", 0⟩
  have hout : pySplit (joinSp ((split_into_chunks sentences m f).map Chunk.text)) =
      chunkWords (split_into_chunks sentences m f) := by
    rw [pySplit_joinSp_flatten]
    simp [chunkWords, List.map_map]
    rfl
  rw [hout]
  have hmeas : chunkWords (split_into_chunks sentences m f) =
      chunkWords (sentences.foldl (sentStep m f) ⟨[], "", 0⟩).chunks ++
        pySplit (sentences.foldl (sentStep m f) ⟨[], "", 0⟩).current := by
    unfold split_into_chunks
    by_cases h : (sentences.foldl (sentStep m f) ⟨[], "", 0⟩).current = ""
    · rw [if_pos h, h]
      have : pySplit "" = [] := rfl
      rw [this]
      simp
    · rw [if_neg h, chunkWords_append_one]
  rw [hmeas]
  have hinit : chunkWords (⟨[], "", 0⟩ : ChunkState).chunks ++
      pySplit (⟨[], "", 0⟩ : ChunkState).current = [] := rfl
  rw [hinit] at hfold
  simpa using hfold

/-- Every slice produced by the fuelled slicer has length at most k. -/
theorem slicesFuel_length :
    ∀ (fuel : Nat) (l : List Nat) (k : Nat), ∀ sl ∈ slicesFuel fuel l k, sl.length ≤ k := by
  intro fuel
  induction fuel with
  | zero => intro l k sl h; simp [slicesFuel] at h
  | succ n ih =>
    intro l k sl h
    cases l with
    | nil => simp [slicesFuel] at h
    | cons x xs =>
      rw [slicesFuel] at h
      by_cases hk : k = 0
      · rw [if_pos hk] at h; simp at h
      · rw [if_neg hk] at h
        rcases List.mem_cons.mp h with h1 | h2
        · subst h1; exact List.length_take_le k (x :: xs)
        · exact ih ((x :: xs).drop k) k sl h2

/-- Every string emitted by chunk_text_content is the stripped decoding of
one of the token slices. -/
theorem chunk_text_content_mem (encode : String → List Nat) (decode : List Nat → String)
    (text : String) (mt : Nat) :
    ∀ c ∈ chunk_text_content encode decode text mt,
      ∃ sl ∈ slices (encode text) mt, c = pyStrip (decode sl) := by
  intro c hc
  unfold chunk_text_content at hc
  rcases List.mem_filterMap.mp hc with ⟨sl, hsl, hval⟩
  by_cases h : pyStrip (decode sl) = ""
  · simp [h] at hval
  · simp [h] at hval
    exact ⟨sl, hsl, hval.symm⟩

/-- Under a non-expanding re-encode of stripped decodings, every
chunk_text_content output re-encodes to at most max_tokens tokens. -/
theorem chunk_text_content_bound (encode : String → List Nat) (decode : List Nat → String)
    (text : String) (mt : Nat)
    (henc : ∀ l : List Nat, (encode (pyStrip (decode l))).length ≤ l.length) :
    ∀ c ∈ chunk_text_content encode decode text mt, (encode c).length ≤ mt := by
  intro c hc
  rcases chunk_text_content_mem encode decode text mt c hc with ⟨sl, hsl, rfl⟩
  exact Nat.le_trans (henc sl) (slicesFuel_length _ _ _ sl hsl)

/-- The sub-element step keeps every emitted chunk within 500 tokens. -/
theorem processSub_c3 (encode : String → List Nat) (md5 : String → String)
    (st : List HChunk × List String) (sub : Node)
    (h : ∀ c ∈ st.1, c.tokens ≤ 500) :
    ∀ c ∈ (processSub encode md5 st sub).1, c.tokens ≤ 500 := by
  unfold processSub
  by_cases h1 : getText sub ≠ "" ∧ (getText sub).length ≥ 15
  · rw [if_pos h1]
    by_cases h2 : md5 (getText sub) ∈ st.2
    · rw [if_pos h2]; exact h
    · rw [if_neg h2]
      by_cases h3 : (encode (getText sub)).length ≤ 500
      · rw [if_pos h3]
        intro c hc
        rcases List.mem_append.mp hc with hA | hB
        · exact h c hA
        · simp at hB; subst hB; exact h3
      · rw [if_neg h3]; exact h
  · rw [if_neg h1]; exact h

/-- The element step keeps every emitted chunk within 500 tokens, under a
non-expanding re-encode of stripped decodings. -/
theorem processElement_c3 (encode : String → List Nat) (decode : List Nat → String)
    (md5 : String → String)
    (henc : ∀ l : List Nat, (encode (pyStrip (decode l))).length ≤ l.length)
    (st : List HChunk × List String) (e : Node)
    (h : ∀ c ∈ st.1, c.tokens ≤ 500) :
    ∀ c ∈ (processElement encode decode md5 st e).1, c.tokens ≤ 500 := by
  unfold processElement
  by_cases h1 : getText e = "" ∨ (getText e).length < 15
  · rw [if_pos h1]; exact h
  · rw [if_neg h1]
    by_cases h2 : md5 (getText e) ∈ st.2
    · rw [if_pos h2]; exact h
    · rw [if_neg h2]
      by_cases h3 : (encode (getText e)).length > 500
      · rw [if_pos h3]
        by_cases h4 : (findDirect subTags e).isEmpty
        · rw [if_pos h4]
          intro c hc
          rcases List.mem_append.mp hc with hA | hB
          · exact h c hA
          · rcases List.mem_map.mp hB with ⟨p, hp, rfl⟩
            have hg := List.mem_enum_iff_getElem?.mp hp
            have hmem : p.2 ∈ chunk_text_content encode decode (getText e) 500 :=
              List.mem_iff_getElem?.mpr ⟨p.1, hg⟩
            exact chunk_text_content_bound encode decode (getText e) 500 henc p.2 hmem
        · rw [if_neg h4]
          exact foldl_invariant (fun st => ∀ c ∈ st.1, c.tokens ≤ 500)
            (processSub encode md5) (findDirect subTags e) (st.1, md5 (getText e) :: st.2) h
            (fun s a _ hs => processSub_c3 encode md5 s a hs)
      · rw [if_neg h3]
        intro c hc
        rcases List.mem_append.mp hc with hA | hB
        · exact h c hA
        · simp at hB; subst hB; exact Nat.le_of_not_lt h3

/-- C3 counterexample: a document whose only content is a bare text node
matches no allow-list element, so the whole-body fallback fires; with 20
tokens per character the emitted body chunk has 520 tokens, over the 500
threshold, although its text is made of short words each far under the budget
(so it is not an indivisible single word sequence).  The whole-body fallback
performs no token-count check at all — it truncates to 5000 characters only. -/
theorem C3_counterexample :
    get_html_chunks encC3 (fun _ => "") (fun s => s) soupC3 =
      [⟨"<div>abcd efgh ijkl mnop qrstuv</div>", "abcd efgh ijkl mnop qrstuv", 520⟩] ∧
    520 > 500 ∧
    ∀ w ∈ pySplit "abcd efgh ijkl mnop qrstuv", (encC3 w).length ≤ 500 := by
  decide

/-- C3 (amended): every chunk emitted by the element, sub-element and
sentence-fallback paths of get_html_chunks has token count at most 500,
provided re-encoding the stripped decoding of a token slice yields no more
tokens than the slice (true of a round-tripping tokenizer); the whole-body
zero-chunk fallback is instead bounded by 5000 characters of text and may
exceed 500 tokens. -/
theorem C3_amended (encode : String → List Nat) (decode : List Nat → String)
    (md5 : String → String) (soupRaw : Node)
    (henc : ∀ l : List Nat, (encode (pyStrip (decode l))).length ≤ l.length) :
    (∀ c ∈ processedChunks encode decode md5 soupRaw, c.tokens ≤ 500) ∧
    (∀ c ∈ get_html_chunks encode decode md5 soupRaw,
      c.tokens ≤ 500 ∨ c.text.length ≤ 5000) := by
  have hmain : ∀ c ∈ processedChunks encode decode md5 soupRaw, c.tokens ≤ 500 := by
    unfold processedChunks
    exact foldl_invariant (fun st : List HChunk × List String => ∀ c ∈ st.1, c.tokens ≤ 500)
      (processElement encode decode md5)
      (findAllDesc allowTags (stripSoup killTags soupRaw)) ([], []) (by simp)
      (fun s a _ hs => processElement_c3 encode decode md5 henc s a hs)
  refine ⟨hmain, ?_⟩
  intro c hc
  unfold get_html_chunks at hc
  by_cases h : (processedChunks encode decode md5 soupRaw).length = 0
  · rw [if_pos h] at hc
    by_cases hb : getText (stripSoup killTags soupRaw) ≠ "" ∧
        (getText (stripSoup killTags soupRaw)).length > 20
    · rw [if_pos hb] at hc
      simp at hc
      subst hc
      right
      show (String.mk ((getText (stripSoup killTags soupRaw)).data.take 5000)).length ≤ 5000
      show ((getText (stripSoup killTags soupRaw)).data.take 5000).length ≤ 5000
      exact List.length_take_le 5000 _
    · rw [if_neg hb] at hc
      simp at hc
  · rw [if_neg h] at hc
    exact Or.inl (hmain c hc)

/-- C3 witness: the amended bound applied at a concrete input (a tokenizer
that encodes everything to no tokens trivially satisfies the re-encode
hypothesis). -/
theorem C3_amended_witness :
    (HChunk.mk "<p>a chunking sample text</p>" "a chunking sample text" 0) ∈
      get_html_chunks (fun _ => []) (fun _ => "") (fun s => s)
        (Node.elem "[document]" [Node.elem "p" [Node.text "a chunking sample text"]]) ∧
    ((HChunk.mk "<p>a chunking sample text</p>" "a chunking sample text" 0).tokens ≤ 500 ∨
      (HChunk.mk "<p>a chunking sample text</p>" "a chunking sample text" 0).text.length ≤ 5000) :=
  ⟨by decide,
   (C3_amended (fun _ => []) (fun _ => "") (fun s => s)
      (Node.elem "[document]" [Node.elem "p" [Node.text "a chunking sample text"]])
      (fun l => by simp)).2
     (HChunk.mk "<p>a chunking sample text</p>" "a chunking sample text" 0) (by decide)⟩

/-- The sub-element step preserves the dedup invariant: every emitted chunk's
text hash is recorded, and the emitted texts are pairwise distinct. -/
theorem processSub_c4 (encode : String → List Nat) (md5 : String → String)
    (st : List HChunk × List String) (sub : Node)
    (h : (∀ c ∈ st.1, md5 c.text ∈ st.2) ∧
      List.Pairwise (fun a b : HChunk => a.text ≠ b.text) st.1) :
    (∀ c ∈ (processSub encode md5 st sub).1,
        md5 c.text ∈ (processSub encode md5 st sub).2) ∧
      List.Pairwise (fun a b : HChunk => a.text ≠ b.text) (processSub encode md5 st sub).1 := by
  unfold processSub
  by_cases h1 : getText sub ≠ "" ∧ (getText sub).length ≥ 15
  · rw [if_pos h1]
    by_cases h2 : md5 (getText sub) ∈ st.2
    · rw [if_pos h2]; exact h
    · rw [if_neg h2]
      by_cases h3 : (encode (getText sub)).length ≤ 500
      · rw [if_pos h3]
        constructor
        · intro c hc
          rcases List.mem_append.mp hc with hA | hB
          · exact List.mem_cons_of_mem _ (h.1 c hA)
          · simp at hB; subst hB; exact List.mem_cons_self _ _
        · rw [List.pairwise_append]
          refine ⟨h.2, by simp, ?_⟩
          intro a ha b hb
          simp at hb
          subst hb
          intro heq
          have heq2 : a.text = getText sub := heq
          exact h2 (by rw [← heq2]; exact h.1 a ha)
      · rw [if_neg h3]
        exact ⟨fun c hc => List.mem_cons_of_mem _ (h.1 c hc), h.2⟩
  · rw [if_neg h1]; exact h

/-- The element step preserves the dedup invariant, provided this element does
not take the chunk_text_content fallback (it is within budget or has direct
sub-elements). -/
theorem processElement_c4 (encode : String → List Nat) (decode : List Nat → String)
    (md5 : String → String) (st : List HChunk × List String) (e : Node)
    (he : (encode (getText e)).length ≤ 500 ∨ (findDirect subTags e).isEmpty = false)
    (h : (∀ c ∈ st.1, md5 c.text ∈ st.2) ∧
      List.Pairwise (fun a b : HChunk => a.text ≠ b.text) st.1) :
    (∀ c ∈ (processElement encode decode md5 st e).1,
        md5 c.text ∈ (processElement encode decode md5 st e).2) ∧
      List.Pairwise (fun a b : HChunk => a.text ≠ b.text)
        (processElement encode decode md5 st e).1 := by
  unfold processElement
  by_cases h1 : getText e = "" ∨ (getText e).length < 15
  · rw [if_pos h1]; exact h
  · rw [if_neg h1]
    by_cases h2 : md5 (getText e) ∈ st.2
    · rw [if_pos h2]; exact h
    · rw [if_neg h2]
      by_cases h3 : (encode (getText e)).length > 500
      · rw [if_pos h3]
        by_cases h4 : (findDirect subTags e).isEmpty
        · rcases he with he | he
          · exact absurd he (by omega)
          · rw [h4] at he
            simp at he
        · rw [if_neg h4]
          refine foldl_invariant
            (fun st : List HChunk × List String =>
              (∀ c ∈ st.1, md5 c.text ∈ st.2) ∧
              List.Pairwise (fun a b : HChunk => a.text ≠ b.text) st.1)
            (processSub encode md5) (findDirect subTags e)
            (st.1, md5 (getText e) :: st.2)
            ⟨fun c hc => List.mem_cons_of_mem _ (h.1 c hc), h.2⟩
            (fun s a _ hs => processSub_c4 encode md5 s a hs)
      · rw [if_neg h3]
        constructor
        · intro c hc
          rcases List.mem_append.mp hc with hA | hB
          · exact List.mem_cons_of_mem _ (h.1 c hA)
          · simp at hB; subst hB; exact List.mem_cons_self _ _
        · rw [List.pairwise_append]
          refine ⟨h.2, by simp, ?_⟩
          intro a ha b hb
          simp at hb
          subst hb
          intro heq
          have heq2 : a.text = getText e := heq
          exact h2 (by rw [← heq2]; exact h.1 a ha)

/-- C4 counterexample: a single oversized div with no qualifying sub-elements
takes the chunk_text_content fallback; with 501 tokens and a decoder sending
every slice to the same string (as happens when oversized elements share a
token prefix), the run emits two chunks with identical text — the fallback
path never consults or updates the seen-hash set. -/
theorem C4_counterexample :
    (get_html_chunks encC4 decC4 (fun s => s) soupC4).map HChunk.text =
      ["dup text chunk", "dup text chunk"] ∧
    ¬ List.Pairwise (fun a b : HChunk => a.text ≠ b.text)
      (get_html_chunks encC4 decC4 (fun s => s) soupC4) := by
  constructor
  · decide
  · decide

/-- C4 (amended): within one run, get_html_chunks never emits two chunks with
identical text, provided no selected element takes the chunk_text_content
fallback — that is, every selected element is either within the 500-token
budget or has at least one direct sub-element from the leaf tag list.
Fallback chunks bypass the hash-based deduplication and may repeat text. -/
theorem C4_amended (encode : String → List Nat) (decode : List Nat → String)
    (md5 : String → String) (soupRaw : Node)
    (hnf : ∀ e ∈ findAllDesc allowTags (stripSoup killTags soupRaw),
      (encode (getText e)).length ≤ 500 ∨ (findDirect subTags e).isEmpty = false) :
    List.Pairwise (fun a b : HChunk => a.text ≠ b.text)
      (get_html_chunks encode decode md5 soupRaw) := by
  have hmain : (∀ c ∈ processedChunks encode decode md5 soupRaw,
      md5 c.text ∈ ((findAllDesc allowTags (stripSoup killTags soupRaw)).foldl
        (processElement encode decode md5) ([], [])).2) ∧
      List.Pairwise (fun a b : HChunk => a.text ≠ b.text)
        (processedChunks encode decode md5 soupRaw) := by
    unfold processedChunks
    exact foldl_invariant
      (fun st : List HChunk × List String =>
        (∀ c ∈ st.1, md5 c.text ∈ st.2) ∧
        List.Pairwise (fun a b : HChunk => a.text ≠ b.text) st.1)
      (processElement encode decode md5)
      (findAllDesc allowTags (stripSoup killTags soupRaw)) ([], []) ⟨by simp, by simp⟩
      (fun s a ha hs => processElement_c4 encode decode md5 s a (hnf a ha) hs)
  unfold get_html_chunks
  by_cases h : (processedChunks encode decode md5 soupRaw).length = 0
  · rw [if_pos h]
    by_cases hb : getText (stripSoup killTags soupRaw) ≠ "" ∧
        (getText (stripSoup killTags soupRaw)).length > 20
    · rw [if_pos hb]
      simp
    · rw [if_neg hb]
      simp
  · rw [if_neg h]
    exact hmain.2

/-- C4 witness: the amended dedup theorem applied at a concrete input. -/
theorem C4_amended_witness :
    List.Pairwise (fun a b : HChunk => a.text ≠ b.text)
      (get_html_chunks (fun _ => []) (fun _ => "") (fun s => s)
        (Node.elem "[document]"
          [Node.elem "p" [Node.text "first paragraph text"],
           Node.elem "p" [Node.text "second paragraph text"]])) :=
  C4_amended (fun _ => []) (fun _ => "") (fun s => s)
    (Node.elem "[document]"
      [Node.elem "p" [Node.text "first paragraph text"],
       Node.elem "p" [Node.text "second paragraph text"]])
    (by decide)

/-- uniqueBySha emits pairwise-distinct digests. -/
theorem uniqueBySha_distinct (sha : String → String) (chunks : List HChunk) :
    List.Pairwise (fun p q : String × HChunk => p.1 ≠ q.1) (uniqueBySha sha chunks) := by
  unfold uniqueBySha
  refine foldl_invariant
    (fun acc : List (String × HChunk) =>
      List.Pairwise (fun p q : String × HChunk => p.1 ≠ q.1) acc)
    (fun acc c =>
      let s := sha c.text
      if acc.any (fun p => p.1 == s) then acc else acc ++ [(s, c)])
    chunks [] (by simp) ?_
  intro acc c _ hacc
  by_cases hany : acc.any (fun p => p.1 == sha c.text)
  · simpa [hany] using hacc
  · have hif : (if acc.any (fun p => p.1 == sha c.text) then acc else acc ++ [(sha c.text, c)])
        = acc ++ [(sha c.text, c)] := by
      rw [if_neg hany]
    show List.Pairwise _ (if acc.any (fun p => p.1 == sha c.text) then acc else acc ++ [(sha c.text, c)])
    rw [hif, List.pairwise_append]
    refine ⟨hacc, by simp, ?_⟩
    intro a ha b hb
    simp at hb
    subst hb
    intro heq
    apply hany
    rw [List.any_eq_true]
    refine ⟨a, ha, ?_⟩
    show (a.1 == sha c.text) = true
    rw [show a.1 = (sha c.text, c).1 from heq]
    exact beq_self_eq_true _

/-- Folding the storage step over pairs whose digests all differ from s leaves
the records with digest s unchanged. -/
theorem storeFold_other {V : Type} (embed : String → V) (url : String) :
    ∀ (u : List (String × HChunk)) (st0 : List (StoredChunk V) × Nat) (s : String),
      (∀ p ∈ u, p.1 ≠ s) →
      (u.foldl (storeStep embed url) st0).1.filter (fun r => r.sha256 == s) =
        st0.1.filter (fun r => r.sha256 == s) := by
  intro u
  induction u with
  | nil => intro st0 s _; rfl
  | cons q u ih =>
    intro st0 s hs
    rw [List.foldl_cons]
    rw [ih (storeStep embed url st0 q) s (fun p hp => hs p (List.mem_cons_of_mem q hp))]
    unfold storeStep
    by_cases h : ((st0.1.filter (fun r => r.sha256 == q.1)).take 1).isEmpty
    · rw [if_pos h]
      rw [List.filter_append]
      have hq : q.1 ≠ s := hs q (by simp)
      have hbeq : (q.1 == s) = false := beq_eq_false_iff_ne.mpr hq
      have hnil : ([(⟨q.2.html, q.2.text, url, q.1, q.2.tokens, embed q.2.text⟩ : StoredChunk V)].filter
          (fun r => r.sha256 == s)) = [] := by
        simp [List.filter, hbeq]
      rw [hnil, List.append_nil]
    · rw [if_neg h]

/-- After the storage fold over pairwise-distinct digests, the number of
records carrying a processed digest is one when the digest was absent from the
initial store, and unchanged otherwise. -/
theorem storeFold_count {V : Type} (embed : String → V) (url : String) :
    ∀ (u : List (String × HChunk)) (st0 : List (StoredChunk V) × Nat),
      List.Pairwise (fun p q : String × HChunk => p.1 ≠ q.1) u →
      ∀ p ∈ u,
        ((u.foldl (storeStep embed url) st0).1.filter (fun r => r.sha256 == p.1)).length =
          if (st0.1.filter (fun r => r.sha256 == p.1)).length = 0 then 1
          else (st0.1.filter (fun r => r.sha256 == p.1)).length := by
  intro u
  induction u with
  | nil => intro st0 _ p hp; simp at hp
  | cons q u ih =>
    intro st0 hpw p hp
    rw [List.foldl_cons]
    rcases List.mem_cons.mp hp with rfl | hp'
    · have hrest : ∀ r ∈ u, r.1 ≠ p.1 := by
        intro r hr he
        exact (List.pairwise_cons.mp hpw).1 r hr he.symm
      rw [storeFold_other embed url u (storeStep embed url st0 p) p.1 hrest]
      unfold storeStep
      by_cases h : ((st0.1.filter (fun r => r.sha256 == p.1)).take 1).isEmpty
      · rw [if_pos h]
        have hnil : st0.1.filter (fun r => r.sha256 == p.1) = [] := by
          rcases hf : st0.1.filter (fun r => r.sha256 == p.1) with _ | ⟨x, xs⟩
          · exact hf
          · rw [hf] at h; simp at h
        rw [List.filter_append, hnil]
        simp
      · rw [if_neg h]
        have hne : st0.1.filter (fun r => r.sha256 == p.1) ≠ [] := by
          intro hf
          rw [hf] at h
          simp at h
        rw [if_neg (fun hlen => hne (List.eq_nil_of_length_eq_zero hlen))]
    · have hq : q.1 ≠ p.1 := (List.pairwise_cons.mp hpw).1 p hp'
      have hstep : (storeStep embed url st0 q).1.filter (fun r => r.sha256 == p.1) =
          st0.1.filter (fun r => r.sha256 == p.1) := by
        unfold storeStep
        by_cases h : ((st0.1.filter (fun r => r.sha256 == q.1)).take 1).isEmpty
        · rw [if_pos h]
          rw [List.filter_append]
          have hbeq : (q.1 == p.1) = false := beq_eq_false_iff_ne.mpr hq
          have hnil : ([(⟨q.2.html, q.2.text, url, q.1, q.2.tokens, embed q.2.text⟩ : StoredChunk V)].filter
              (fun r => r.sha256 == p.1)) = [] := by
            simp [List.filter, hbeq]
          rw [hnil, List.append_nil]
        · rw [if_neg h]
      rw [ih (storeStep embed url st0 q) (List.pairwise_cons.mp hpw).2 p hp', hstep]

/-- C5 counterexample: the store already holds a record with digest "H" owned
by https://a.com and no record at all for https://b.com; a chunk with that
digest arriving for https://b.com is nevertheless skipped (stored_count 0,
store unchanged), because the existence query filters on sha256 only, with no
url clause — contradicting "persisted if and only if no record with its
content hash already exists for that same url". -/
theorem C5_counterexample :
    store_new_chunks (fun _ => (0 : Nat)) "https://b.com" storeC5
        (uniqueBySha shaC5 [chunkC5]) = (storeC5, 0) ∧
    uniqueBySha shaC5 [chunkC5] = [("H", chunkC5)] ∧
    ∀ r ∈ storeC5, r.url ≠ "https://b.com" := by
  refine ⟨by decide, by decide, ?_⟩
  intro r hr
  simp [storeC5] at hr
  subst hr
  decide

/-- C5 (amended): the storage step of /search is idempotent per content hash
GLOBALLY, not per (content_hash, url): for every digest in the run's unique
chunk list, after the step the store holds exactly one record with that digest
when it held none before — regardless of which url owns it — and an unchanged
number otherwise; in the latter case nothing is embedded or stored for that
digest even when the existing record belongs to a different url. -/
theorem C5_amended {V : Type} (embed : String → V) (sha : String → String)
    (url : String) (store : List (StoredChunk V)) (chunks : List HChunk) :
    ∀ p ∈ uniqueBySha sha chunks,
      ((store_new_chunks embed url store (uniqueBySha sha chunks)).1.filter
          (fun r => r.sha256 == p.1)).length =
        if (store.filter (fun r => r.sha256 == p.1)).length = 0 then 1
        else (store.filter (fun r => r.sha256 == p.1)).length := by
  intro p hp
  unfold store_new_chunks
  exact storeFold_count embed url (uniqueBySha sha chunks) (store, 0)
    (uniqueBySha_distinct sha chunks) p hp

/-- C5 witness: the amended idempotence applied at a concrete input — an empty
store receives exactly one record for the digest. -/
theorem C5_amended_witness :
    ((store_new_chunks (fun _ => (0 : Nat)) "https://a.com" []
        (uniqueBySha shaC5 [chunkC5])).1.filter
          (fun r => r.sha256 == "H")).length =
      if (List.filter (fun r => r.sha256 == "H") ([] : List (StoredChunk Nat))).length = 0
      then 1
      else (List.filter (fun r => r.sha256 == "H") ([] : List (StoredChunk Nat))).length :=
  C5_amended (fun _ => (0 : Nat)) shaC5 "https://a.com" [] [chunkC5] ("H", chunkC5)
    (by decide)

/-- C6: the /clear-url handler cannot return 400.  Its own
HTTPException(400, "URL is required") and validate_url's ValueError are both
caught by the handler's blanket except-Exception and re-surfaced as HTTP 500
(the 500 detail even contains the swallowed "400: URL is required" text),
while /search correctly re-raises HTTPExceptions and answers 400 for the same
inputs.  This evaluates the embedded handlers at the failing inputs. -/
theorem C6_clear_url_500 :
    clear_url none 0 = ClearUrlResp.errorResp 500 "400: URL is required" ∧
    clear_url (some "https://") 0 =
      ClearUrlResp.errorResp 500 "Invalid URL format: https://" ∧
    search_validate none (some "q") =
      Except.error (400, "URL and query are required") ∧
    search_validate (some "https://") (some "q") =
      Except.error (400, "Invalid URL format: https://") :=
  ⟨by decide, by decide, rfl, rfl⟩

/-- C9: validate_url accepts a scheme-less URL by prepending https:// before
validating — the bare host "example.com" validates to
"https://example.com" — and it raises ValueError only when, after the fix-up,
the URL still lacks a scheme or a host (an empty netloc). -/
theorem C9_validate_url :
    validate_url "example.com" = Except.ok "https://example.com" ∧
    (∀ u, (pyUrlsplit (pyStrip u)).scheme = "" → fixupUrl u = "https://" ++ pyStrip u) ∧
    (∀ u e, validate_url u = Except.error e →
      (pyUrlsplit (fixupUrl u)).scheme = "" ∨ (pyUrlsplit (fixupUrl u)).netloc = "") := by
  refine ⟨rfl, ?_, ?_⟩
  · intro u h
    unfold fixupUrl
    rw [if_pos h]
  · intro u e herr
    unfold validate_url at herr
    by_cases h : (pyUrlsplit (fixupUrl u)).scheme = "" ∨ (pyUrlsplit (fixupUrl u)).netloc = ""
    · exact h
    · rw [if_neg h] at herr
      simp at herr

/-- C9 witness: the validate_url characterization applied at concrete inputs
(the empty string still fails validation after the fix-up, with an empty
netloc). -/
theorem C9_validate_url_witness :
    fixupUrl "example.com" = "https://" ++ pyStrip "example.com" ∧
    ((pyUrlsplit (fixupUrl "")).scheme = "" ∨ (pyUrlsplit (fixupUrl "")).netloc = "") :=
  ⟨C9_validate_url.2.1 "example.com" (by decide),
   C9_validate_url.2.2 "" "Invalid URL format: https://" rfl⟩

/-- C8: the query /search issues is scoped by a where-filter on the url field
with the validated url as value and limit 10; the formatted response has at
most as many results as the limit, and each result's score is exactly 1 minus
the distance the store reported for that hit (position by position, with a
default distance of 1). -/
theorem C8_search_results {V : Type} (v : V) (url : String) (hits : List SearchHit)
    (hlim : hits.length ≤ (build_search_query url v).limit) :
    (build_search_query url v).wherePath = ["url"] ∧
    (build_search_query url v).whereValue = url ∧
    (build_search_query url v).limit = 10 ∧
    (format_results hits).length ≤ 10 ∧
    (format_results hits).map ResultItem.score =
      hits.map (fun h => 1 - h.distance.getD 1) := by
  refine ⟨rfl, rfl, rfl, ?_, ?_⟩
  · unfold format_results
    rw [List.length_map]
    exact hlim
  · unfold format_results
    rw [List.map_map]
    rfl

/-- C8 witness: the search-result theorem applied at a concrete hit list. -/
theorem C8_search_results_witness :
    (build_search_query "https://a.com" (0 : Nat)).wherePath = ["url"] ∧
    (build_search_query "https://a.com" (0 : Nat)).whereValue = "https://a.com" ∧
    (build_search_query "https://a.com" (0 : Nat)).limit = 10 ∧
    (format_results [⟨"<p>t</p>", "t", "https://a.com", 3, some (1 / 2)⟩]).length ≤ 10 ∧
    (format_results [⟨"<p>t</p>", "t", "https://a.com", 3, some (1 / 2)⟩]).map ResultItem.score =
      [(⟨"<p>t</p>", "t", "https://a.com", 3, some (1 / 2)⟩ : SearchHit)].map
        (fun h => 1 - h.distance.getD 1) :=
  C8_search_results (0 : Nat) "https://a.com"
    [⟨"<p>t</p>", "t", "https://a.com", 3, some (1 / 2)⟩] (by decide)
